import Mathlib

/-!
# amplifier-profiling: message protocol and main-window presentation

A shallow embedding of `sources/messages.h` and `sources/mainwindow.cc`.

Number model.  A finite C++ `float` or `double` is modelled by the number it
denotes, an element of a linear ordered field `K` with a floor function (`ℚ`
when a definition is evaluated, `ℝ` where `pow` and `log10` are given their
mathematical values).  The machine types are modelled where a result depends on
them:

* `std::lround` returns a `long`: `lround` gives the nearest integer when it
  fits 64 bits and `LONG_MIN` otherwise;
* the product `progress * 100` of `showProgress` is formed in binary32 and
  rounded to that format (`binary32.round`), and the `long` is converted to the
  `int` parameter of `setValue` (`narrowToInt`);
* the product `f * 1e-3` of `showCurrentFrequency` is formed in double
  precision; the exact product stands for it, and `lround_double_product` shows
  that both round to the same integer for every binary32 `f` in `[1000, 10^16)`;
* `std::pow` and `std::log10` are parameters (`Libm`), so that a theorem about
  `showLevels` holds for the values any implementation returns.

Infinities and NaN are outside the model.
-/

/-! ## sources/messages.h -/

/-- The enumeration `enum class Message_Tag`, one enumerator per entry of
`EACH_MESSAGE_TYPE`. -/
inductive Message_Tag where
  | RequestAnalyzeFrequency
  | NotifyFrequencyAnalysis
  deriving DecidableEq, Repr

/-- The X-macro `EACH_MESSAGE_TYPE(F)`: the message kinds in the order in which
the macro lists them. -/
def EACH_MESSAGE_TYPE : List Message_Tag :=
  [Message_Tag.RequestAnalyzeFrequency, Message_Tag.NotifyFrequencyAnalysis]

/-- The numeric value of an enumerator: `DECLARE_MEMBER` declares the
enumerators in macro order without initialisers, so each one is numbered by its
position, starting from zero. -/
def Message_Tag.underlying (t : Message_Tag) : Nat :=
  EACH_MESSAGE_TYPE.indexOf t

/-- The enumerator that has a given numeric value, when there is one. -/
def Message_Tag.ofUnderlying (v : Nat) : Option Message_Tag :=
  EACH_MESSAGE_TYPE.get? v

/-- Value-initialisation `Message_Tag()`: the object whose numeric value is
zero, that is the enumerator declared first. -/
def Message_Tag.valueInit : Message_Tag :=
  EACH_MESSAGE_TYPE.head (by decide)

/-- The struct `Basic_Message`: its only member is `const Message_Tag tag`. -/
structure Basic_Message where
  tag : Message_Tag
  deriving DecidableEq, Repr

/-- The constructor `Basic_Message() : tag() {}`. -/
def Basic_Message.new : Basic_Message :=
  { tag := Message_Tag.valueInit }

/-- The constructor `explicit Basic_Message(Message_Tag tag) : tag(tag) {}`. -/
def Basic_Message.newWithTag (tag : Message_Tag) : Basic_Message :=
  { tag := tag }

/-- The template `Basic_Message_T<Tag>`, derived from `Basic_Message`. -/
structure Basic_Message_T (Tag : Message_Tag) extends Basic_Message
  deriving DecidableEq, Repr

/-- The constructor `Basic_Message_T() : Basic_Message(Tag) {}`. -/
def Basic_Message_T.new (Tag : Message_Tag) : Basic_Message_T Tag :=
  { toBasic_Message := Basic_Message.newWithTag Tag }

/-- The value type `std::complex<float>`: a real and an imaginary part. -/
structure std_complex (K : Type) where
  re : K
  im : K
  deriving DecidableEq, Repr

namespace Messages

/-- The message `DEFMESSAGE(RequestAnalyzeFrequency)`: a struct derived from
`Basic_Message_T<Message_Tag::RequestAnalyzeFrequency>` with the payload
members `float frequency` and `int spl`. -/
structure RequestAnalyzeFrequency (K : Type) extends
    Basic_Message_T Message_Tag.RequestAnalyzeFrequency where
  frequency : K
  spl : Int

/-- The message `DEFMESSAGE(NotifyFrequencyAnalysis)`: a struct derived from
`Basic_Message_T<Message_Tag::NotifyFrequencyAnalysis>` with the payload
members `float frequency`, `int spl` and `std::complex<float> response`. -/
structure NotifyFrequencyAnalysis (K : Type) extends
    Basic_Message_T Message_Tag.NotifyFrequencyAnalysis where
  frequency : K
  spl : Int
  response : std_complex K

/-- Construction of a `RequestAnalyzeFrequency`: the implicit constructor runs
the base constructor; the payload members hold whatever they are given. -/
def RequestAnalyzeFrequency.new {K : Type} (frequency : K) (spl : Int) :
    RequestAnalyzeFrequency K :=
  { toBasic_Message_T := Basic_Message_T.new Message_Tag.RequestAnalyzeFrequency
    frequency := frequency
    spl := spl }

/-- Construction of a `NotifyFrequencyAnalysis`: the implicit constructor runs
the base constructor; the payload members hold whatever they are given. -/
def NotifyFrequencyAnalysis.new {K : Type} (frequency : K) (spl : Int)
    (response : std_complex K) : NotifyFrequencyAnalysis K :=
  { toBasic_Message_T := Basic_Message_T.new Message_Tag.NotifyFrequencyAnalysis
    frequency := frequency
    spl := spl
    response := response }

/-- An assignment to a payload member of a `RequestAnalyzeFrequency`.  The
member `tag` is `const`, so no assignment to it exists. -/
inductive RequestAnalyzeFrequency.Update (K : Type) where
  | frequency (v : K)
  | spl (v : Int)

/-- An assignment to a payload member of a `NotifyFrequencyAnalysis`.  The
member `tag` is `const`, so no assignment to it exists. -/
inductive NotifyFrequencyAnalysis.Update (K : Type) where
  | frequency (v : K)
  | spl (v : Int)
  | response (v : std_complex K)

/-- The message after one assignment to a payload member. -/
def RequestAnalyzeFrequency.assign {K : Type} (m : RequestAnalyzeFrequency K) :
    RequestAnalyzeFrequency.Update K → RequestAnalyzeFrequency K
  | .frequency v => { m with frequency := v }
  | .spl v => { m with spl := v }

/-- The message after one assignment to a payload member. -/
def NotifyFrequencyAnalysis.assign {K : Type} (m : NotifyFrequencyAnalysis K) :
    NotifyFrequencyAnalysis.Update K → NotifyFrequencyAnalysis K
  | .frequency v => { m with frequency := v }
  | .spl v => { m with spl := v }
  | .response v => { m with response := v }

end Messages

/-! ## Message sizes (declared in sources/messages.h, defined elsewhere) -/

/-- Size and alignment of an object type, in bytes. -/
structure TypeLayout where
  size : Nat
  align : Nat
  deriving DecidableEq, Repr

/-- The platform ABI, as far as the messages depend on it: the layouts of the
four member types.  `Message_Tag` is an enumeration over `int`. -/
structure ABI where
  Message_Tag : TypeLayout
  float : TypeLayout
  int : TypeLayout
  complex_float : TypeLayout
  deriving DecidableEq, Repr

/-- Every alignment of the ABI is a power of two: it divides a power of two. -/
def ABI.WellFormed (abi : ABI) : Prop :=
  ∀ l ∈ [abi.Message_Tag, abi.float, abi.int, abi.complex_float],
    l.align ∣ 2 ^ l.align

instance ABI.decidableWellFormed (abi : ABI) : Decidable abi.WellFormed := by
  unfold ABI.WellFormed
  infer_instance

/-- The least multiple of the alignment `a` that is not below `off`. -/
def alignUp (off a : Nat) : Nat :=
  (off + a - 1) / a * a

/-- The offset just past the last member when the members are laid out in
order, each at the next offset that satisfies its alignment. -/
def layoutEnd (members : List TypeLayout) : Nat :=
  members.foldl (fun off m => alignUp off m.align + m.size) 0

/-- The alignment of a struct: the largest alignment among its members. -/
def layoutAlign (members : List TypeLayout) : Nat :=
  members.foldl (fun a m => max a m.align) 1

/-- The value of `sizeof` for a struct with the given members: the end of the
last member, rounded up to the alignment of the struct. -/
def structSize (members : List TypeLayout) : Nat :=
  alignUp (layoutEnd members) (layoutAlign members)

/-- The non-static data members of each message struct, base class first:
`tag` from `Basic_Message`, then the payload members in declaration order. -/
def Messages.members (abi : ABI) : Message_Tag → List TypeLayout
  | Message_Tag.RequestAnalyzeFrequency => [abi.Message_Tag, abi.float, abi.int]
  | Message_Tag.NotifyFrequencyAnalysis =>
      [abi.Message_Tag, abi.float, abi.int, abi.complex_float]

/-- The byte size `sizeof(Messages::t)` of the message variant with tag `t`. -/
def Messages.sizeof (abi : ABI) (t : Message_Tag) : Nat :=
  structSize (Messages.members abi t)

/-- Modelled from the spec: `Messages::size_of`, declared in messages.h and
defined outside the two files embedded here.  "`size_of(tag)` returns the exact
byte size of the payload associated with `tag`": one case per message kind. -/
def Messages.size_of (abi : ABI) (tag : Message_Tag) : Nat :=
  match tag with
  | Message_Tag.RequestAnalyzeFrequency =>
      structSize [abi.Message_Tag, abi.float, abi.int]
  | Message_Tag.NotifyFrequencyAnalysis =>
      structSize [abi.Message_Tag, abi.float, abi.int, abi.complex_float]

/-- A block of byte storage, known by its length. -/
structure Buffer where
  capacity : Nat
  deriving DecidableEq, Repr

/-- Modelled from the spec: `Messages::allocate_buffer`, declared in messages.h
and defined outside the two files embedded here.  "`allocate_buffer()` returns
storage at least as large as the largest known variant": a block whose length
is the largest `size_of` over `EACH_MESSAGE_TYPE`. -/
def Messages.allocate_buffer (abi : ABI) : Buffer :=
  { capacity := (EACH_MESSAGE_TYPE.map (Messages.size_of abi)).foldl max 0 }

/-! ## Binary floating point -/

/-- A binary floating-point format: the number of bits of the significand and
the exponent of the smallest normal number. -/
structure FloatFormat where
  prec : Nat
  emin : Int
  deriving DecidableEq, Repr

/-- The format of `float`: IEEE 754 binary32. -/
def binary32 : FloatFormat :=
  { prec := 24, emin := -126 }

/-- The format of `double`: IEEE 754 binary64. -/
def binary64 : FloatFormat :=
  { prec := 53, emin := -1022 }

/-- The nearest integer, a halfway case rounded to the even neighbour. -/
def roundHalfEven {K : Type} [LinearOrderedField K] [FloorRing K] (x : K) : ℤ :=
  if x - ⌊x⌋ < 1 / 2 then ⌊x⌋
  else if 1 / 2 < x - ⌊x⌋ then ⌊x⌋ + 1
  else if ⌊x⌋ % 2 = 0 then ⌊x⌋ else ⌊x⌋ + 1

/-- The spacing of the numbers of a format around `x`: two to the power of the
exponent of `x` (not below `emin`, where the subnormal numbers begin) minus the
number of fraction bits. -/
def FloatFormat.quantum {K : Type} [LinearOrderedField K] [FloorRing K]
    (fmt : FloatFormat) (x : K) : K :=
  (2 : K) ^ (max (Int.log 2 |x|) fmt.emin - (fmt.prec - 1))

/-- The result the machine delivers for an operation whose exact result is `x`:
the number of the format nearest to `x`, a halfway case rounded to the even
significand (the default rounding of IEEE 754).  The exponent is not bounded
above: beyond the largest finite number, where the machine delivers an
infinity, the value stays a number of that magnitude. -/
def FloatFormat.round {K : Type} [LinearOrderedField K] [FloorRing K]
    (fmt : FloatFormat) (x : K) : K :=
  roundHalfEven (x / fmt.quantum x) * fmt.quantum x

/-- The numbers of a format: an integer significand of `prec` bits times a
power of two, the exponent not below that of the subnormal numbers. -/
def FloatFormat.Representable {K : Type} [LinearOrderedField K]
    (fmt : FloatFormat) (z : K) : Prop :=
  ∃ m k : ℤ, |m| < 2 ^ fmt.prec ∧ fmt.emin - (fmt.prec - 1) ≤ k ∧ z = m * (2 : K) ^ k

/-- The value of the literal `1e-3`, a `double`: the binary64 number nearest to
one thousandth, `0x1.0624dd2f1a9fcp-10`. -/
def double_1e_3 {K : Type} [LinearOrderedField K] : K :=
  1152921504606847 / 2 ^ 60

/-! ## sources/mainwindow.cc -/

/-- The least value of the type `long` (64 bits). -/
def LONG_MIN : ℤ :=
  -2 ^ 63

/-- The greatest value of the type `long` (64 bits). -/
def LONG_MAX : ℤ :=
  2 ^ 63 - 1

/-- The nearest integer, a halfway case rounded away from zero. -/
def roundHalfAway {K : Type} [LinearOrderedField K] [FloorRing K] (x : K) : ℤ :=
  if 0 ≤ x then ⌊x + 1 / 2⌋ else ⌈x - 1 / 2⌉

/-- The function `std::lround`, whose result is a `long`: the nearest integer,
a halfway case rounded away from zero.  When that integer does not fit a `long`
the C standard leaves the result unspecified; the value taken here is the one
the x86-64 conversion delivers, `LONG_MIN`. -/
def lround {K : Type} [LinearOrderedField K] [FloorRing K] (x : K) : ℤ :=
  if LONG_MIN ≤ roundHalfAway x ∧ roundHalfAway x ≤ LONG_MAX then roundHalfAway x
  else LONG_MIN

/-- The words "the integer nearest to `x`, half away from zero": `n` is closer
to `x` than one half, or exactly one half away on the side away from zero. -/
def IsNearestHalfAway {K : Type} [LinearOrderedField K] (x : K) (n : ℤ) : Prop :=
  |x - n| < 1 / 2 ∨ (|x - n| = 1 / 2 ∧ |x| < |(n : K)|)

/-- The function `QString::number(long)`: the decimal numeral of an integer. -/
def QString.number (n : ℤ) : String :=
  toString n

/-- A `QLabel`: the text it shows. -/
structure QLabel where
  text : String
  deriving DecidableEq, Repr

/-- The call `QLabel::setText`. -/
def QLabel.setText (_l : QLabel) (text : String) : QLabel :=
  { text := text }

/-- A `QProgressBar`: the value it shows. -/
structure QProgressBar where
  value : ℤ
  deriving DecidableEq, Repr

/-- Modelled from the spec: the level meters `vu_input` and `vu_output`, whose
class is declared in the generated header ui_mainwindow.h, outside the two
files embedded here.  A meter has a minimum and shows the level, in dB, that
was last set ("linear amplitude, converted to dB for display"). -/
structure Meter (K : Type) where
  minimum : K
  value : K

/-- A `QwtPlotCurve` holding raw samples: the two arrays it points to, each
given by its element at every index, and the number of samples. -/
structure QwtPlotCurve (K : Type) where
  xData : Nat → K
  yData : Nat → K
  size : Nat

/-- A `QwtPlotMarker` drawn as a vertical line: its position on the x axis. -/
structure QwtPlotMarker (K : Type) where
  xValue : K

/-- The widgets of `Ui::MainWindow` that the four `show` methods write to. -/
structure Ui.MainWindow (K : Type) where
  lbl_frequency : QLabel
  vu_input : Meter K
  vu_output : Meter K
  progressBar : QProgressBar

namespace MainWindow

/-- The struct `MainWindow::Impl`: the widgets, the four curves and the two
markers. -/
structure Impl (K : Type) where
  ui : Ui.MainWindow K
  curve_lo_mag_ : QwtPlotCurve K
  curve_lo_phase_ : QwtPlotCurve K
  curve_hi_mag_ : QwtPlotCurve K
  curve_hi_phase_ : QwtPlotCurve K
  marker_mag_ : QwtPlotMarker K
  marker_phase_ : QwtPlotMarker K

variable {K : Type} [LinearOrderedField K] [FloorRing K]

/-- The method `MainWindow::showCurrentFrequency(float f)`.  The product
`f * 1e-3` is formed in double precision; the exact product stands for it here
(see `lround_double_product`). -/
def showCurrentFrequency (P : Impl K) (f : K) : Impl K :=
  let text : String :=
    if f < 1000 then
      QString.number (lround f) ++ " Hz"
    else
      QString.number (lround (f * 1e-3)) ++ " kHz"
  { P with ui := { P.ui with lbl_frequency := P.ui.lbl_frequency.setText text } }

end MainWindow

/-! ## Theorems: sources/messages.h -/

/-- C1: a freshly constructed message carries the tag of its own variant,
whatever its payload, and the tags of the two variants differ. -/
theorem message_tag_of_variant {K : Type} (f₁ f₂ : K) (s₁ s₂ : Int) (r : std_complex K) :
    (Messages.RequestAnalyzeFrequency.new f₁ s₁).tag = Message_Tag.RequestAnalyzeFrequency ∧
    (Messages.NotifyFrequencyAnalysis.new f₂ s₂ r).tag = Message_Tag.NotifyFrequencyAnalysis ∧
    (Messages.RequestAnalyzeFrequency.new f₁ s₁).tag ≠
      (Messages.NotifyFrequencyAnalysis.new f₂ s₂ r).tag := by
  refine ⟨rfl, rfl, ?_⟩
  show Message_Tag.RequestAnalyzeFrequency ≠ Message_Tag.NotifyFrequencyAnalysis
  decide

/-- One assignment to a payload member of a request leaves the tag as it was. -/
theorem request_assign_tag {K : Type}
    (m : Messages.RequestAnalyzeFrequency K) (u : Messages.RequestAnalyzeFrequency.Update K) :
    (m.assign u).tag = m.tag := by
  cases u <;> rfl

/-- One assignment to a payload member of a notification leaves the tag as it
was. -/
theorem notify_assign_tag {K : Type}
    (m : Messages.NotifyFrequencyAnalysis K) (u : Messages.NotifyFrequencyAnalysis.Update K) :
    (m.assign u).tag = m.tag := by
  cases u <;> rfl

/-- Any sequence of assignments to payload members of a request leaves the tag
as it was. -/
theorem request_foldl_assign_tag {K : Type}
    (us : List (Messages.RequestAnalyzeFrequency.Update K))
    (m : Messages.RequestAnalyzeFrequency K) :
    (us.foldl Messages.RequestAnalyzeFrequency.assign m).tag = m.tag := by
  induction us generalizing m with
  | nil => rfl
  | cons u us ih =>
    rw [List.foldl_cons, ih, request_assign_tag]

/-- Any sequence of assignments to payload members of a notification leaves the
tag as it was. -/
theorem notify_foldl_assign_tag {K : Type}
    (us : List (Messages.NotifyFrequencyAnalysis.Update K))
    (m : Messages.NotifyFrequencyAnalysis K) :
    (us.foldl Messages.NotifyFrequencyAnalysis.assign m).tag = m.tag := by
  induction us generalizing m with
  | nil => rfl
  | cons u us ih =>
    rw [List.foldl_cons, ih, notify_assign_tag]

/-- C2: the tag of a message is immutable once the message is constructed.
Every assignment to a payload member (frequency, spl, and response for a
notification) leaves the tag of any message unchanged, and after any sequence
of such assignments a message still has the tag it was constructed with. -/
theorem message_tag_immutable {K : Type} :
    (∀ (m : Messages.RequestAnalyzeFrequency K) (u : Messages.RequestAnalyzeFrequency.Update K),
      (m.assign u).tag = m.tag) ∧
    (∀ (m : Messages.NotifyFrequencyAnalysis K) (u : Messages.NotifyFrequencyAnalysis.Update K),
      (m.assign u).tag = m.tag) ∧
    (∀ (f : K) (s : Int) (us : List (Messages.RequestAnalyzeFrequency.Update K)),
      (us.foldl Messages.RequestAnalyzeFrequency.assign
        (Messages.RequestAnalyzeFrequency.new f s)).tag =
        (Messages.RequestAnalyzeFrequency.new f s).tag) ∧
    (∀ (f : K) (s : Int) (r : std_complex K)
        (us : List (Messages.NotifyFrequencyAnalysis.Update K)),
      (us.foldl Messages.NotifyFrequencyAnalysis.assign
        (Messages.NotifyFrequencyAnalysis.new f s r)).tag =
        (Messages.NotifyFrequencyAnalysis.new f s r).tag) :=
  ⟨request_assign_tag, notify_assign_tag,
    fun _ _ us => request_foldl_assign_tag us _,
    fun _ _ _ us => notify_foldl_assign_tag us _⟩

/-- C10: a `Basic_Message` built with the default constructor carries the
value-initialised tag, which is the enumerator with numeric value 0, the first
one declared, `RequestAnalyzeFrequency`; a `Basic_Message` built from a tag `t`
carries exactly `t`. -/
theorem basic_message_constructor_tag :
    Basic_Message.new.tag = Message_Tag.RequestAnalyzeFrequency ∧
    Basic_Message.new.tag.underlying = 0 ∧
    Message_Tag.ofUnderlying 0 = some Basic_Message.new.tag ∧
    EACH_MESSAGE_TYPE.head? = some Basic_Message.new.tag ∧
    ∀ t : Message_Tag, (Basic_Message.newWithTag t).tag = t := by
  refine ⟨rfl, by decide, rfl, rfl, fun _ => rfl⟩

/-! ## Theorems: message sizes -/

/-- Rounding up to a positive alignment does not go below the offset. -/
theorem le_alignUp (off a : Nat) (ha : 0 < a) : off ≤ alignUp off a := by
  unfold alignUp
  have h := Nat.div_add_mod (off + a - 1) a
  have hm := Nat.mod_lt (off + a - 1) ha
  have hc : a * ((off + a - 1) / a) = (off + a - 1) / a * a := Nat.mul_comm _ _
  omega

/-- The result of rounding up is a multiple of the alignment. -/
theorem dvd_alignUp (off a : Nat) : a ∣ alignUp off a :=
  Dvd.intro_left _ rfl

/-- The result of rounding up is the least multiple that is not below the
offset. -/
theorem alignUp_le_of_dvd (off a m : Nat) (ha : 0 < a) (hdvd : a ∣ m) (hle : off ≤ m) :
    alignUp off a ≤ m := by
  obtain ⟨k, rfl⟩ := hdvd
  unfold alignUp
  rw [Nat.mul_comm a k]
  apply Nat.mul_le_mul_right
  rw [Nat.div_le_iff_le_mul_add_pred ha]
  have : k * a = a * k := Nat.mul_comm _ _
  omega

/-- A number that divides a power of two is a power of two. -/
theorem exists_eq_pow_two_of_dvd (a n : Nat) (h : a ∣ 2 ^ n) : ∃ i, a = 2 ^ i := by
  obtain ⟨i, _, hi⟩ := (Nat.dvd_prime_pow Nat.prime_two).1 h
  exact ⟨i, hi⟩

/-- Of two powers of two, each divides the larger, which is again a power of
two. -/
theorem pow_two_dvd_max (a b : Nat) (ha : ∃ i, a = 2 ^ i) (hb : ∃ j, b = 2 ^ j) :
    a ∣ max a b ∧ ∃ k, max a b = 2 ^ k := by
  obtain ⟨i, rfl⟩ := ha
  obtain ⟨j, rfl⟩ := hb
  rcases Nat.le_total i j with hij | hij
  · have hle : 2 ^ i ≤ 2 ^ j := Nat.pow_le_pow_right (by decide) hij
    rw [Nat.max_eq_right hle]
    exact ⟨pow_dvd_pow 2 hij, j, rfl⟩
  · have hle : 2 ^ j ≤ 2 ^ i := Nat.pow_le_pow_right (by decide) hij
    rw [Nat.max_eq_left hle]
    exact ⟨dvd_rfl, i, rfl⟩

/-- Appending a member to a struct does not shrink it, when the alignment of
the struct so far and that of the new member are powers of two. -/
theorem alignUp_le_alignUp_append (e A s a : Nat) (hA : ∃ i, A = 2 ^ i) (ha : ∃ j, a = 2 ^ j) :
    alignUp e A ≤ alignUp (alignUp e a + s) (max A a) := by
  obtain ⟨hdvd, k, hk⟩ := pow_two_dvd_max A a hA ha
  have hApos : 0 < A := by
    obtain ⟨i, rfl⟩ := hA
    exact Nat.pos_pow_of_pos _ (by decide)
  have hapos : 0 < a := by
    obtain ⟨j, rfl⟩ := ha
    exact Nat.pos_pow_of_pos _ (by decide)
  have hmpos : 0 < max A a := lt_of_lt_of_le hApos (Nat.le_max_left _ _)
  apply alignUp_le_of_dvd e A _ hApos (dvd_trans hdvd (dvd_alignUp _ _))
  have h1 := le_alignUp e a hapos
  have h2 := le_alignUp (alignUp e a + s) (max A a) hmpos
  omega

/-- The request is never larger than the notification, which has one member
more. -/
theorem Messages.size_of_request_le_notify (abi : ABI) (h : abi.WellFormed) :
    Messages.size_of abi Message_Tag.RequestAnalyzeFrequency ≤
      Messages.size_of abi Message_Tag.NotifyFrequencyAnalysis := by
  have ht : ∃ i, abi.Message_Tag.align = 2 ^ i :=
    exists_eq_pow_two_of_dvd _ _ (h _ (by simp))
  have hf : ∃ i, abi.float.align = 2 ^ i :=
    exists_eq_pow_two_of_dvd _ _ (h _ (by simp))
  have hi : ∃ i, abi.int.align = 2 ^ i :=
    exists_eq_pow_two_of_dvd _ _ (h _ (by simp))
  have hc : ∃ i, abi.complex_float.align = 2 ^ i :=
    exists_eq_pow_two_of_dvd _ _ (h _ (by simp))
  have h1 : ∃ i, max 1 abi.Message_Tag.align = 2 ^ i :=
    (pow_two_dvd_max 1 _ ⟨0, rfl⟩ ht).2
  have h2 : ∃ i, max (max 1 abi.Message_Tag.align) abi.float.align = 2 ^ i :=
    (pow_two_dvd_max _ _ h1 hf).2
  have h3 : ∃ i, max (max (max 1 abi.Message_Tag.align) abi.float.align) abi.int.align = 2 ^ i :=
    (pow_two_dvd_max _ _ h2 hi).2
  simp only [Messages.size_of, structSize, layoutEnd, layoutAlign, List.foldl]
  exact alignUp_le_alignUp_append _ _ _ _ h3 hc

/-- C3: `size_of(tag)` is the exact byte size of the message variant with that
tag, the storage returned by `allocate_buffer()` has room for `size_of(tag)`
bytes whatever the tag, and the largest variant is `NotifyFrequencyAnalysis`,
whose size is the length of that storage.  (Sizes are those of an ABI whose
alignments are powers of two.) -/
theorem size_of_exact_and_buffer_fits (abi : ABI) (h : abi.WellFormed) (tag : Message_Tag) :
    Messages.size_of abi tag = Messages.sizeof abi tag ∧
    Messages.size_of abi tag ≤ (Messages.allocate_buffer abi).capacity ∧
    Messages.sizeof abi tag ≤ Messages.sizeof abi Message_Tag.NotifyFrequencyAnalysis ∧
    (Messages.allocate_buffer abi).capacity =
      Messages.sizeof abi Message_Tag.NotifyFrequencyAnalysis := by
  have hle := Messages.size_of_request_le_notify abi h
  have hcap : (Messages.allocate_buffer abi).capacity =
      max (max 0 (Messages.size_of abi Message_Tag.RequestAnalyzeFrequency))
        (Messages.size_of abi Message_Tag.NotifyFrequencyAnalysis) := rfl
  have hR : Messages.size_of abi Message_Tag.RequestAnalyzeFrequency =
      Messages.sizeof abi Message_Tag.RequestAnalyzeFrequency := rfl
  have hN : Messages.size_of abi Message_Tag.NotifyFrequencyAnalysis =
      Messages.sizeof abi Message_Tag.NotifyFrequencyAnalysis := rfl
  rw [hcap]
  cases tag
  · refine ⟨hR, ?_, ?_, ?_⟩ <;> omega
  · refine ⟨hN, ?_, ?_, ?_⟩ <;> omega

/-- C3 at the usual 64-bit ABI (4-byte `int`, `float` and enumeration, 8-byte
`std::complex<float>` aligned to 4): the request has 12 bytes, the
notification 20, and the buffer 20. -/
theorem size_of_exact_and_buffer_fits_witness :
    (Messages.size_of ⟨⟨4, 4⟩, ⟨4, 4⟩, ⟨4, 4⟩, ⟨8, 4⟩⟩ Message_Tag.RequestAnalyzeFrequency = 12 ∧
      Messages.size_of ⟨⟨4, 4⟩, ⟨4, 4⟩, ⟨4, 4⟩, ⟨8, 4⟩⟩ Message_Tag.NotifyFrequencyAnalysis = 20 ∧
      (Messages.allocate_buffer ⟨⟨4, 4⟩, ⟨4, 4⟩, ⟨4, 4⟩, ⟨8, 4⟩⟩).capacity = 20) ∧
    (Messages.size_of ⟨⟨4, 4⟩, ⟨4, 4⟩, ⟨4, 4⟩, ⟨8, 4⟩⟩ Message_Tag.RequestAnalyzeFrequency =
        Messages.sizeof ⟨⟨4, 4⟩, ⟨4, 4⟩, ⟨4, 4⟩, ⟨8, 4⟩⟩ Message_Tag.RequestAnalyzeFrequency ∧
      Messages.size_of ⟨⟨4, 4⟩, ⟨4, 4⟩, ⟨4, 4⟩, ⟨8, 4⟩⟩ Message_Tag.RequestAnalyzeFrequency ≤
        (Messages.allocate_buffer ⟨⟨4, 4⟩, ⟨4, 4⟩, ⟨4, 4⟩, ⟨8, 4⟩⟩).capacity ∧
      Messages.sizeof ⟨⟨4, 4⟩, ⟨4, 4⟩, ⟨4, 4⟩, ⟨8, 4⟩⟩ Message_Tag.RequestAnalyzeFrequency ≤
        Messages.sizeof ⟨⟨4, 4⟩, ⟨4, 4⟩, ⟨4, 4⟩, ⟨8, 4⟩⟩ Message_Tag.NotifyFrequencyAnalysis ∧
      (Messages.allocate_buffer ⟨⟨4, 4⟩, ⟨4, 4⟩, ⟨4, 4⟩, ⟨8, 4⟩⟩).capacity =
        Messages.sizeof ⟨⟨4, 4⟩, ⟨4, 4⟩, ⟨4, 4⟩, ⟨8, 4⟩⟩ Message_Tag.NotifyFrequencyAnalysis) :=
  ⟨by decide,
    size_of_exact_and_buffer_fits ⟨⟨4, 4⟩, ⟨4, 4⟩, ⟨4, 4⟩, ⟨8, 4⟩⟩ (by decide)
      Message_Tag.RequestAnalyzeFrequency⟩

/-! ## Theorems: rounding -/

/-- No integer lies strictly between two consecutive integers. -/
theorem not_int_between {K : Type} [LinearOrderedField K] (n k : ℤ)
    (h1 : (k : K) < n) (h2 : (n : K) < k + 1) : False := by
  have h1' : k < n := by exact_mod_cast h1
  have h2' : n < k + 1 := by exact_mod_cast h2
  omega

section Rounding

variable {K : Type} [LinearOrderedField K] [FloorRing K]

/-- On a non-negative number `roundHalfAway` is the floor of the number plus
one half. -/
theorem roundHalfAway_of_nonneg {x : K} (h : 0 ≤ x) : roundHalfAway x = ⌊x + 1 / 2⌋ := by
  simp [roundHalfAway, h]

/-- On a negative number `roundHalfAway` is the ceiling of the number minus
one half. -/
theorem roundHalfAway_of_neg {x : K} (h : x < 0) : roundHalfAway x = ⌈x - 1 / 2⌉ := by
  simp [roundHalfAway, not_le.mpr h]

/-- The value of `roundHalfAway` is the integer nearest to its argument, half
away from zero. -/
theorem roundHalfAway_isNearestHalfAway (x : K) : IsNearestHalfAway x (roundHalfAway x) := by
  unfold IsNearestHalfAway
  rcases le_or_lt 0 x with h | h
  · rw [roundHalfAway_of_nonneg h]
    have h1 := Int.floor_le (x + 1 / 2)
    have h2 := Int.lt_floor_add_one (x + 1 / 2)
    rcases eq_or_lt_of_le h1 with he | hl
    · right
      have hn : (0 : K) ≤ (⌊x + 1 / 2⌋ : K) := by rw [he]; linarith
      refine ⟨?_, ?_⟩
      · rw [he]; rw [abs_of_nonpos (by linarith)]; linarith
      · rw [abs_of_nonneg h, abs_of_nonneg hn, he]; linarith
    · left
      rw [abs_lt]
      constructor <;> linarith
  · rw [roundHalfAway_of_neg h]
    have h1 := Int.le_ceil (x - 1 / 2)
    have h2 := Int.ceil_lt_add_one (x - 1 / 2)
    rcases eq_or_lt_of_le h1 with he | hl
    · right
      have hn : (⌈x - 1 / 2⌉ : K) ≤ 0 := by rw [← he]; linarith
      refine ⟨?_, ?_⟩
      · rw [← he]; rw [abs_of_nonneg (by linarith)]; linarith
      · rw [abs_of_neg h, abs_of_nonpos hn, ← he]; linarith
    · left
      rw [abs_lt]
      constructor <;> linarith

/-- An integer nearest to `x`, half away from zero, is the value of
`roundHalfAway`. -/
theorem eq_roundHalfAway_of_isNearestHalfAway (x : K) (n : ℤ) (h : IsNearestHalfAway x n) :
    n = roundHalfAway x := by
  unfold IsNearestHalfAway at h
  rcases le_or_lt 0 x with hx | hx
  · rw [roundHalfAway_of_nonneg hx]
    symm
    rw [Int.floor_eq_iff]
    rcases h with h | ⟨he, hlt⟩
    · rw [abs_lt] at h
      constructor <;> linarith [h.1, h.2]
    · rw [abs_of_nonneg hx] at hlt
      rcases abs_cases (x - n) with ⟨ha, _⟩ | ⟨ha, _⟩
      · -- x - n = 1/2, so n = x - 1/2 and |n| ≤ x unless -1 < n < 0
        exfalso
        rcases abs_cases (n : K) with ⟨hb, _⟩ | ⟨hb, _⟩
        · linarith
        · have h1 : ((-1 : ℤ) : K) < n := by push_cast; linarith
          have h2 : (n : K) < ((-1 : ℤ) : K) + 1 := by push_cast; linarith
          exact not_int_between n (-1) h1 h2
      · constructor <;> linarith
  · rw [roundHalfAway_of_neg hx]
    symm
    rw [Int.ceil_eq_iff]
    rcases h with h | ⟨he, hlt⟩
    · rw [abs_lt] at h
      constructor <;> linarith [h.1, h.2]
    · rw [abs_of_neg hx] at hlt
      rcases abs_cases (x - n) with ⟨ha, _⟩ | ⟨ha, _⟩
      · constructor <;> linarith
      · exfalso
        rcases abs_cases (n : K) with ⟨hb, _⟩ | ⟨hb, _⟩
        · have h1 : ((0 : ℤ) : K) < n := by push_cast; linarith
          have h2 : (n : K) < ((0 : ℤ) : K) + 1 := by push_cast; linarith
          exact not_int_between n 0 h1 h2
        · linarith

/-- The function `roundHalfAway` is monotone. -/
theorem roundHalfAway_mono {x y : K} (h : x ≤ y) : roundHalfAway x ≤ roundHalfAway y := by
  rcases le_or_lt 0 x with hx | hx
  · rw [roundHalfAway_of_nonneg hx, roundHalfAway_of_nonneg (le_trans hx h)]
    exact Int.floor_le_floor (by linarith)
  · rcases le_or_lt 0 y with hy | hy
    · rw [roundHalfAway_of_neg hx, roundHalfAway_of_nonneg hy]
      have h1 : ⌈x - 1 / 2⌉ ≤ 0 := by
        rw [Int.ceil_le]; push_cast; linarith
      have h2 : 0 ≤ ⌊y + 1 / 2⌋ := by
        rw [Int.le_floor]; push_cast; linarith
      exact le_trans h1 h2
    · rw [roundHalfAway_of_neg hx, roundHalfAway_of_neg hy]
      exact Int.ceil_le_ceil (by linarith)

/-- An integer is rounded to itself. -/
theorem roundHalfAway_intCast (n : ℤ) : roundHalfAway (n : K) = n := by
  symm
  apply eq_roundHalfAway_of_isNearestHalfAway
  left
  simp

/-- Where the nearest integer fits a `long`, `lround` returns it. -/
theorem lround_eq_roundHalfAway {x : K}
    (h : LONG_MIN ≤ roundHalfAway x ∧ roundHalfAway x ≤ LONG_MAX) :
    lround x = roundHalfAway x := by
  unfold lround
  rw [if_pos h]

/-- Between two integers that fit a `long`, `lround` returns the nearest
integer. -/
theorem lround_of_bounds (x : K) (a b : ℤ) (ha : LONG_MIN ≤ a) (hb : b ≤ LONG_MAX)
    (h1 : (a : K) ≤ x) (h2 : x ≤ b) : lround x = roundHalfAway x := by
  apply lround_eq_roundHalfAway
  have e1 := roundHalfAway_mono h1
  have e2 := roundHalfAway_mono h2
  rw [roundHalfAway_intCast] at e1 e2
  constructor <;> omega

/-- The value of `lround` on a non-negative number whose nearest integer `n`
fits a `long`. -/
theorem lround_eq_of_floor (x : K) (n : ℤ) (hx : 0 ≤ x) (h1 : (n : K) ≤ x + 1 / 2)
    (h2 : x + 1 / 2 < n + 1) (hn : n ≤ LONG_MAX) : lround x = n := by
  have hr : roundHalfAway x = n := by
    rw [roundHalfAway_of_nonneg hx, Int.floor_eq_iff]
    exact ⟨h1, h2⟩
  have h0 : (0 : ℤ) ≤ n := by
    have : ((-1 : ℤ) : K) < n := by push_cast; linarith
    have : (-1 : ℤ) < n := by exact_mod_cast this
    omega
  rw [lround_eq_roundHalfAway (by rw [hr]; unfold LONG_MIN; constructor <;> omega), hr]

end Rounding


/-! ## Theorems: rounding to a floating-point format -/

/-- A multiple of two to the power `k` is a multiple of two to any smaller power. -/
theorem exists_int_mul_zpow {K : Type} [LinearOrderedField K] (m k s : ℤ) (h : s ≤ k) :
    ∃ j : ℤ, (m : K) * (2 : K) ^ k = j * (2 : K) ^ s := by
  obtain ⟨n, hn⟩ := Int.eq_ofNat_of_zero_le (sub_nonneg.mpr h)
  refine ⟨m * 2 ^ n, ?_⟩
  have hk : k = s + n := by omega
  rw [hk, zpow_add₀ (two_ne_zero), zpow_natCast]
  push_cast
  ring

/-- A representable number of magnitude at least `2 ^ (s + prec - 1)` is a multiple of
`2 ^ s`. -/
theorem FloatFormat.Representable.exists_mul_zpow {K : Type} [LinearOrderedField K]
    (fmt : FloatFormat) (z : K)
    (hz : fmt.Representable z) (s : ℤ) (h : (2 : K) ^ (s + fmt.prec - 1) ≤ |z|) :
    ∃ j : ℤ, z = j * (2 : K) ^ s := by
  obtain ⟨m, k, hm, _, rfl⟩ := hz
  rcases le_or_lt s k with hs | hs
  · exact exists_int_mul_zpow m k s hs
  · exfalso
    have h2k : (0 : K) < (2 : K) ^ k := by positivity
    have hm' : |(m : K)| < (2 : K) ^ fmt.prec := by
      have : ((|m| : ℤ) : K) < ((2 ^ fmt.prec : ℤ) : K) := by exact_mod_cast hm
      simpa using this
    have : |(m : K) * (2 : K) ^ k| < (2 : K) ^ (s + fmt.prec - 1) := by
      rw [abs_mul, abs_of_pos h2k]
      calc |(m : K)| * (2 : K) ^ k < (2 : K) ^ fmt.prec * (2 : K) ^ k :=
            mul_lt_mul_of_pos_right hm' h2k
        _ = (2 : K) ^ (k + fmt.prec) := by
            rw [zpow_add₀ two_ne_zero, zpow_natCast]; ring
        _ ≤ (2 : K) ^ (s + fmt.prec - 1) := zpow_le_zpow_right₀ (by norm_num) (by omega)
    exact absurd h (not_le.mpr this)

section FloatRounding

variable {K : Type} [LinearOrderedField K] [FloorRing K]

/-- The value of `roundHalfEven` is the floor or the integer after it, whichever
is not farther than one half. -/
theorem roundHalfEven_cases (x : K) :
    (roundHalfEven x = ⌊x⌋ ∧ x - ⌊x⌋ ≤ 1 / 2) ∨ (roundHalfEven x = ⌊x⌋ + 1 ∧ 1 / 2 ≤ x - ⌊x⌋) := by
  unfold roundHalfEven
  split_ifs with h1 h2 h3
  · left; exact ⟨rfl, le_of_lt h1⟩
  · right; exact ⟨rfl, le_of_lt h2⟩
  · left; exact ⟨rfl, not_lt.mp h2⟩
  · right; exact ⟨rfl, not_lt.mp h1⟩

/-- No integer is nearer to `x` than `roundHalfEven x`. -/
theorem roundHalfEven_nearest (x : K) (j : ℤ) :
    |x - roundHalfEven x| ≤ |x - j| := by
  have hf := Int.floor_le x
  have hl := Int.lt_floor_add_one x
  rcases le_or_lt j ⌊x⌋ with hj | hj
  · have hj' : (j : K) ≤ ⌊x⌋ := by exact_mod_cast hj
    rw [abs_of_nonneg (a := x - j) (by linarith)]
    rcases roundHalfEven_cases x with ⟨he, hd⟩ | ⟨he, hd⟩
    · rw [he, abs_of_nonneg (by linarith)]; linarith
    · rw [he]; push_cast; rw [abs_of_nonpos (by linarith)]; linarith
  · have hj' : ((⌊x⌋ : ℤ) : K) + 1 ≤ j := by exact_mod_cast hj
    rw [abs_of_nonpos (a := x - j) (by linarith)]
    rcases roundHalfEven_cases x with ⟨he, hd⟩ | ⟨he, hd⟩
    · rw [he, abs_of_nonneg (by linarith)]; linarith
    · rw [he]; push_cast; rw [abs_of_nonpos (by linarith)]; linarith

/-- The spacing of a format is positive. -/
theorem FloatFormat.quantum_pos (fmt : FloatFormat) (x : K) : 0 < fmt.quantum x := by
  unfold FloatFormat.quantum
  positivity

/-- No multiple of the spacing around `x` is nearer to `x` than the rounded
value. -/
theorem FloatFormat.round_nearest_mul (fmt : FloatFormat) (x : K) (j : ℤ) :
    |x - fmt.round x| ≤ |x - j * fmt.quantum x| := by
  have hq := fmt.quantum_pos x
  have h := roundHalfEven_nearest (x / fmt.quantum x) j
  have e1 : x - fmt.round x = (x / fmt.quantum x - roundHalfEven (x / fmt.quantum x)) * fmt.quantum x := by
    unfold FloatFormat.round
    field_simp
    ring
  have e2 : x - j * fmt.quantum x = (x / fmt.quantum x - j) * fmt.quantum x := by
    field_simp
    ring
  rw [e1, e2, abs_mul, abs_mul, abs_of_pos hq]
  exact mul_le_mul_of_nonneg_right h (le_of_lt hq)

/-- Zero is rounded to zero. -/
theorem FloatFormat.round_zero (fmt : FloatFormat) : fmt.round (0 : K) = 0 := by
  simp [FloatFormat.round, roundHalfEven]

/-- No number of the format is nearer to `x` than the rounded value. -/
theorem FloatFormat.round_nearest (fmt : FloatFormat) (hp : 1 ≤ fmt.prec) (x z : K)
    (hz : fmt.Representable z) : |x - fmt.round x| ≤ |x - z| := by
  obtain ⟨m, k, hm, hk, rfl⟩ := hz
  rcases eq_or_ne x 0 with rfl | hx
  · rw [fmt.round_zero]; simp
  rcases le_or_lt (max (Int.log 2 |x|) fmt.emin - (fmt.prec - 1)) k with hs | hs
  · obtain ⟨j, hj⟩ := exists_int_mul_zpow (K := K) m k _ hs
    rw [hj]
    exact fmt.round_nearest_mul x j
  · -- the number is below the binade of `x`
    have hxpos : 0 < |x| := abs_pos.mpr hx
    have hL : max (Int.log 2 |x|) fmt.emin = Int.log 2 |x| := by
      apply max_eq_left
      by_contra hc
      rw [max_eq_right (le_of_lt (not_le.mp hc))] at hs
      omega
    rw [hL] at hs
    have hT : (2 : K) ^ Int.log 2 |x| ≤ |x| := Int.zpow_log_le_self (by norm_num) hxpos
    -- the power of two at the bottom of the binade is a multiple of the quantum
    have hTq : ∃ j : ℤ, (2 : K) ^ Int.log 2 |x| = j * fmt.quantum x := by
      have := exists_int_mul_zpow (K := K) 1 (Int.log 2 |x|)
        (Int.log 2 |x| - (fmt.prec - 1)) (by omega)
      obtain ⟨j, hj⟩ := this
      refine ⟨j, ?_⟩
      unfold FloatFormat.quantum
      rw [hL, ← hj]; simp
    obtain ⟨j, hj⟩ := hTq
    -- the representable number is smaller than that power of two
    have hzlt : |(m : K) * (2 : K) ^ k| < (2 : K) ^ Int.log 2 |x| := by
      have h2k : (0 : K) < (2 : K) ^ k := by positivity
      rw [abs_mul, abs_of_pos h2k]
      have hm' : |(m : K)| < (2 : K) ^ fmt.prec := by
        have : ((|m| : ℤ) : K) < ((2 ^ fmt.prec : ℤ) : K) := by exact_mod_cast hm
        simpa using this
      have hk' : k + fmt.prec ≤ Int.log 2 |x| := by omega
      calc |(m : K)| * (2 : K) ^ k < (2 : K) ^ fmt.prec * (2 : K) ^ k :=
            mul_lt_mul_of_pos_right hm' h2k
        _ = (2 : K) ^ (k + fmt.prec) := by
            rw [zpow_add₀ two_ne_zero, zpow_natCast]; ring
        _ ≤ (2 : K) ^ Int.log 2 |x| := zpow_le_zpow_right₀ (by norm_num) hk'
    have hzabs := abs_lt.mp hzlt
    rcases lt_or_gt_of_ne hx with hneg | hpos
    · have hT' : (2 : K) ^ Int.log 2 |x| ≤ -x := hT.trans_eq (abs_of_neg hneg)
      have h1 := fmt.round_nearest_mul x (-j)
      have e : ((-j : ℤ) : K) * fmt.quantum x = -(2 : K) ^ Int.log 2 |x| := by
        rw [hj]; push_cast; ring
      rw [e] at h1
      refine le_trans h1 ?_
      generalize (2 : K) ^ Int.log 2 |x| = T at *
      rw [abs_of_nonpos (a := x - -T) (by linarith),
        abs_of_nonpos (a := x - (m : K) * (2 : K) ^ k) (by linarith [hzabs.1])]
      linarith [hzabs.1]
    · have hT' : (2 : K) ^ Int.log 2 |x| ≤ x := hT.trans_eq (abs_of_pos hpos)
      have h1 := fmt.round_nearest_mul x j
      rw [← hj] at h1
      refine le_trans h1 ?_
      generalize (2 : K) ^ Int.log 2 |x| = T at *
      rw [abs_of_nonneg (a := x - T) (by linarith),
        abs_of_nonneg (a := x - (m : K) * (2 : K) ^ k) (by linarith [hzabs.2])]
      linarith [hzabs.2]

/-- The rounded value is a number of the format. -/
theorem FloatFormat.round_representable (fmt : FloatFormat) (hp : 1 ≤ fmt.prec) (x : K) :
    fmt.Representable (fmt.round x) := by
  have hq := fmt.quantum_pos x
  -- the scaled number is below two to the precision in absolute value
  have hy : |x / fmt.quantum x| < (2 : K) ^ fmt.prec := by
    rw [abs_div, abs_of_pos hq, div_lt_iff₀ hq]
    have h1 : |x| < (2 : K) ^ (Int.log 2 |x| + 1) := by
      have := Int.lt_zpow_succ_log_self (R := K) (b := 2) (by norm_num) |x|
      simpa using this
    have h2 : (2 : K) ^ (Int.log 2 |x| + 1) ≤
        (2 : K) ^ (max (Int.log 2 |x|) fmt.emin + 1) :=
      zpow_le_zpow_right₀ (by norm_num) (by have := le_max_left (Int.log 2 |x|) fmt.emin; omega)
    have h3 : (2 : K) ^ fmt.prec * fmt.quantum x =
        (2 : K) ^ (max (Int.log 2 |x|) fmt.emin + 1) := by
      unfold FloatFormat.quantum
      rw [← zpow_natCast, ← zpow_add₀ two_ne_zero]
      congr 1
      ring
    rw [h3]
    exact lt_of_lt_of_le h1 h2
  obtain ⟨hy1, hy2⟩ := abs_lt.mp hy
  have hfl1 : -(2 : ℤ) ^ fmt.prec ≤ ⌊x / fmt.quantum x⌋ := by
    rw [Int.le_floor]; push_cast; exact le_of_lt hy1
  have hfl2 : ⌊x / fmt.quantum x⌋ < (2 : ℤ) ^ fmt.prec := by
    rw [Int.floor_lt]; push_cast; exact hy2
  have hN : -(2 : ℤ) ^ fmt.prec ≤ roundHalfEven (x / fmt.quantum x) ∧
      roundHalfEven (x / fmt.quantum x) ≤ (2 : ℤ) ^ fmt.prec := by
    rcases roundHalfEven_cases (x / fmt.quantum x) with ⟨he, _⟩ | ⟨he, _⟩ <;> rw [he] <;>
      constructor <;> omega
  have hpow : (2 : ℤ) ^ fmt.prec = 2 * 2 ^ (fmt.prec - 1) := by
    rw [← pow_succ']
    congr 1
    omega
  have hpos : (0 : ℤ) < 2 ^ (fmt.prec - 1) := by positivity
  have hstep : ∀ c : ℤ, (c : K) * (2 : K) ^ (max (Int.log 2 |x|) fmt.emin - (fmt.prec - 1) + 1)
      = ((2 * c : ℤ) : K) * fmt.quantum x := by
    intro c
    unfold FloatFormat.quantum
    rw [zpow_add₀ two_ne_zero]
    push_cast
    ring
  unfold FloatFormat.round
  rcases eq_or_lt_of_le hN.2 with heq | hlt
  · -- rounded up to the next power of two
    refine ⟨2 ^ (fmt.prec - 1), max (Int.log 2 |x|) fmt.emin - (fmt.prec - 1) + 1, ?_, ?_, ?_⟩
    · rw [abs_of_pos hpos]; omega
    · have := le_max_right (Int.log 2 |x|) fmt.emin; omega
    · rw [hstep, ← hpow, heq]
  rcases eq_or_lt_of_le hN.1 with heq | hgt
  · refine ⟨-2 ^ (fmt.prec - 1), max (Int.log 2 |x|) fmt.emin - (fmt.prec - 1) + 1, ?_, ?_, ?_⟩
    · rw [abs_neg, abs_of_pos hpos]; omega
    · have := le_max_right (Int.log 2 |x|) fmt.emin; omega
    · rw [hstep, ← heq]
      congr 2
      omega
  · refine ⟨roundHalfEven (x / fmt.quantum x),
      max (Int.log 2 |x|) fmt.emin - (fmt.prec - 1), ?_, ?_, rfl⟩
    · rw [abs_lt]; constructor <;> omega
    · have := le_max_right (Int.log 2 |x|) fmt.emin; omega

/-- Rounding leaves a representable number as it is. -/
theorem FloatFormat.round_of_representable (fmt : FloatFormat) (hp : 1 ≤ fmt.prec) (z : K)
    (hz : fmt.Representable z) : fmt.round z = z := by
  have h := fmt.round_nearest hp z z hz
  rw [sub_self, abs_zero] at h
  have h0 := abs_eq_zero.mp (le_antisymm h (abs_nonneg _))
  linarith

/-- Rounding is monotone. -/
theorem FloatFormat.round_mono (fmt : FloatFormat) (hp : 1 ≤ fmt.prec) {x y : K} (hxy : x ≤ y) :
    fmt.round x ≤ fmt.round y := by
  by_contra hc
  have hlt : fmt.round y < fmt.round x := not_le.mp hc
  have h1 := fmt.round_nearest hp x (fmt.round y) (fmt.round_representable hp y)
  have h2 := fmt.round_nearest hp y (fmt.round x) (fmt.round_representable hp x)
  -- x is at least as close to the larger value, y to the smaller one
  have hx : fmt.round x + fmt.round y ≤ 2 * x := by
    rcases abs_cases (x - fmt.round x) with ⟨e1, _⟩ | ⟨e1, _⟩ <;>
      rcases abs_cases (x - fmt.round y) with ⟨e2, _⟩ | ⟨e2, _⟩ <;> linarith
  have hy : 2 * y ≤ fmt.round x + fmt.round y := by
    rcases abs_cases (y - fmt.round y) with ⟨e1, _⟩ | ⟨e1, _⟩ <;>
      rcases abs_cases (y - fmt.round x) with ⟨e2, _⟩ | ⟨e2, _⟩ <;> linarith
  have hxy' : x = y := le_antisymm hxy (by linarith)
  rw [hxy'] at hlt
  exact lt_irrefl _ hlt

/-- The double-precision product `f * 1e-3` and the exact product round to the
same integer: for a binary32 `f` with `1000 ≤ f < 10^16`, rounding `f` times the
double literal `1e-3` to binary64 and applying `lround` gives what `lround`
gives on `f * 1e-3` computed exactly. -/
theorem lround_double_product (f : K) (hf : binary32.Representable f) (h1 : 1000 ≤ f)
    (h2 : f < 10 ^ 16) :
    lround (binary64.round (f * double_1e_3)) = lround (f * 1e-3) := by
  have hp : 1 ≤ binary64.prec := by decide
  have hm : f * 1e-3 = f / 1000 := by norm_num [div_eq_mul_inv]
  have hf0 : (0 : K) ≤ f := by linarith
  -- the integer the exact quotient rounds to
  obtain ⟨n, hn⟩ : ∃ n : ℤ, n = ⌊f / 1000 + 1 / 2⌋ := ⟨_, rfl⟩
  have hn1 : (n : K) ≤ f / 1000 + 1 / 2 := hn ▸ Int.floor_le _
  have hn2 : f / 1000 + 1 / 2 < n + 1 := hn ▸ Int.lt_floor_add_one _
  have hnpos : (1 : ℤ) ≤ n := by
    rw [hn, Int.le_floor]; push_cast; linarith
  have hnK : (1 : K) ≤ n := by exact_mod_cast hnpos
  have hnlt : n < 2 ^ 44 := by
    have : (n : K) < ((2 ^ 44 : ℤ) : K) := by push_cast; linarith
    exact_mod_cast this
  have hnltK : (n : K) < 2 ^ 44 := by exact_mod_cast hnlt
  -- lower side: the product is not below `n - 1/2`, which is a double
  have hlo : (n : K) - 1 / 2 ≤ binary64.round (f * double_1e_3) := by
    have hr : binary64.Representable ((n : K) - 1 / 2) := by
      refine ⟨2 * n - 1, -1, ?_, by decide, ?_⟩
      · rw [abs_lt]; constructor <;> norm_num [binary64] <;> omega
      · push_cast; rw [zpow_neg_one]; ring
    rw [← binary64.round_of_representable hp _ hr]
    apply binary64.round_mono hp
    unfold double_1e_3
    linarith
  -- upper side: the product is not above a double below `n + 1/2`
  have hhi : binary64.round (f * double_1e_3) < (n : K) + 1 / 2 := by
    rcases lt_or_le f (2 ^ 25) with hsmall | hlarge
    · -- below 2^25 a binary32 number is a multiple of 2^-14
      obtain ⟨A, hA⟩ := FloatFormat.Representable.exists_mul_zpow binary32 f hf (-14)
        (by rw [abs_of_nonneg hf0]; norm_num [binary32]; linarith)
      have hAf : f = A / 2 ^ 14 := by rw [hA]; norm_num [div_eq_mul_inv]
      have hAlt : A < (1000 * n + 500) * 2 ^ 14 := by
        have : (A : K) < (((1000 * n + 500) * 2 ^ 14 : ℤ) : K) := by
          push_cast
          have : (A : K) = f * 2 ^ 14 := by rw [hAf]; field_simp
          rw [this]; linarith
        exact_mod_cast this
      have hAle : (A : K) ≤ (1000 * n + 500) * 2 ^ 14 - 1 := by
        have : A ≤ (1000 * n + 500) * 2 ^ 14 - 1 := by omega
        exact_mod_cast this
      have hfle : f ≤ 1000 * n + 500 - 1 / 2 ^ 14 := by
        rw [hAf, div_le_iff₀ (by positivity)]
        have : (1000 * (n : K) + 500 - 1 / 2 ^ 14) * 2 ^ 14 = (1000 * n + 500) * 2 ^ 14 - 1 := by
          field_simp
        rw [this]; exact hAle
      have hnle : (n : K) ≤ 33555 := by linarith
      have hr : binary64.Representable ((n : K) + 1 / 2 - 1 / 2 ^ 25) := by
        refine ⟨(2 * n + 1) * 2 ^ 24 - 1, -25, ?_, by decide, ?_⟩
        · have : n ≤ 33555 := by exact_mod_cast hnle
          rw [abs_lt]; constructor <;> norm_num [binary64] <;> omega
        · push_cast; rw [zpow_neg, zpow_ofNat]; field_simp; ring
      have hx : f * double_1e_3 ≤ (n : K) + 1 / 2 - 1 / 2 ^ 25 := by
        have : f * double_1e_3 ≤ (1000 * n + 500 - 1 / 2 ^ 14) * double_1e_3 :=
          mul_le_mul_of_nonneg_right hfle (by unfold double_1e_3; positivity)
        refine le_trans this ?_
        unfold double_1e_3
        linarith
      have := binary64.round_mono hp hx
      rw [binary64.round_of_representable hp _ hr] at this
      have h25 : (0 : K) < 1 / 2 ^ 25 := by positivity
      linarith
    · -- from 2^25 on a binary32 number is a multiple of 4
      obtain ⟨B, hB⟩ := FloatFormat.Representable.exists_mul_zpow binary32 f hf 2
        (by rw [abs_of_nonneg hf0]; norm_num [binary32]; linarith)
      have hBf : f = B * 4 := by rw [hB]; norm_num
      have hBlt : B < 250 * n + 125 := by
        have : (B : K) < ((250 * n + 125 : ℤ) : K) := by
          push_cast; linarith
        exact_mod_cast this
      have hBle : (B : K) ≤ 250 * n + 124 := by
        have : B ≤ 250 * n + 124 := by omega
        exact_mod_cast this
      have hfle : f ≤ 1000 * n + 496 := by rw [hBf]; linarith
      have hr : binary64.Representable ((n : K) + 1 / 2 - 1 / 2 ^ 9) := by
        refine ⟨(2 * n + 1) * 2 ^ 8 - 1, -9, ?_, by decide, ?_⟩
        · rw [abs_lt]; constructor <;> norm_num [binary64] <;> omega
        · push_cast; rw [zpow_neg, zpow_ofNat]; field_simp; ring
      have hx : f * double_1e_3 ≤ (n : K) + 1 / 2 - 1 / 2 ^ 9 := by
        have : f * double_1e_3 ≤ (1000 * n + 496) * double_1e_3 :=
          mul_le_mul_of_nonneg_right hfle (by unfold double_1e_3; positivity)
        refine le_trans this ?_
        unfold double_1e_3
        linarith
      have := binary64.round_mono hp hx
      rw [binary64.round_of_representable hp _ hr] at this
      have h9 : (0 : K) < 1 / 2 ^ 9 := by positivity
      linarith
  -- both sides round to `n`
  have hR : roundHalfAway (binary64.round (f * double_1e_3)) = n := by
    unfold roundHalfAway
    rw [if_pos (by linarith), Int.floor_eq_iff]
    constructor <;> linarith
  have hE : roundHalfAway (f * 1e-3) = n := by
    unfold roundHalfAway
    rw [hm, if_pos (by positivity), hn]
  have hrange : LONG_MIN ≤ n ∧ n ≤ LONG_MAX := by
    unfold LONG_MIN LONG_MAX; constructor <;> omega
  unfold lround
  rw [hR, hE, if_pos hrange]

end FloatRounding

/-! ## Theorems: sources/mainwindow.cc -/

section MainWindowTheorems

variable {K : Type} [LinearOrderedField K] [FloorRing K]

/-- The label after `showCurrentFrequency` below 1000 Hz. -/
theorem MainWindow.showCurrentFrequency_text_of_lt (P : MainWindow.Impl K) (f : K)
    (h : f < 1000) :
    (MainWindow.showCurrentFrequency P f).ui.lbl_frequency.text =
      QString.number (lround f) ++ " Hz" := by
  simp [MainWindow.showCurrentFrequency, QLabel.setText, h]

/-- The label after `showCurrentFrequency` from 1000 Hz on. -/
theorem MainWindow.showCurrentFrequency_text_of_ge (P : MainWindow.Impl K) (f : K)
    (h : 1000 ≤ f) :
    (MainWindow.showCurrentFrequency P f).ui.lbl_frequency.text =
      QString.number (lround (f / 1000)) ++ " kHz" := by
  have hm : f * 1e-3 = f / 1000 := by norm_num [div_eq_mul_inv]
  simp [MainWindow.showCurrentFrequency, QLabel.setText, not_lt.mpr h, hm]

/-- C6 (amended): `showCurrentFrequency` labels a frequency `f` with
`-2^63 ≤ f < 1000` with the integer nearest to `f` (half away from zero)
followed by " Hz", and a frequency `f` with `1000 ≤ f < 10^16` with the integer
nearest to `f / 1000` (half away from zero) followed by " kHz"; in both cases
that integer is the only nearest one.  For a binary32 `f` in the second range
the label is the same when the product is formed as the code forms it, in
double precision with the double literal `1e-3`. -/
theorem showCurrentFrequency_label (P : MainWindow.Impl K) (f : K) :
    (-(2 : K) ^ 63 ≤ f → f < 1000 →
      ∃ n : ℤ, IsNearestHalfAway f n ∧ (∀ m : ℤ, IsNearestHalfAway f m → m = n) ∧
        (MainWindow.showCurrentFrequency P f).ui.lbl_frequency.text =
          QString.number n ++ " Hz") ∧
    (1000 ≤ f → f < 10 ^ 16 →
      ∃ n : ℤ, IsNearestHalfAway (f / 1000) n ∧
        (∀ m : ℤ, IsNearestHalfAway (f / 1000) m → m = n) ∧
        (MainWindow.showCurrentFrequency P f).ui.lbl_frequency.text =
          QString.number n ++ " kHz") ∧
    (binary32.Representable f → 1000 ≤ f → f < 10 ^ 16 →
      (MainWindow.showCurrentFrequency P f).ui.lbl_frequency.text =
        QString.number (lround (binary64.round (f * double_1e_3))) ++ " kHz") := by
  refine ⟨fun h1 h2 => ?_, fun h1 h2 => ?_, fun hf h1 h2 => ?_⟩
  · have hl : lround f = roundHalfAway f :=
      lround_of_bounds f (-2 ^ 63) 1000 (by unfold LONG_MIN; norm_num)
        (by unfold LONG_MAX; norm_num) (by push_cast; linarith) (by push_cast; linarith)
    refine ⟨roundHalfAway f, roundHalfAway_isNearestHalfAway f,
      eq_roundHalfAway_of_isNearestHalfAway f, ?_⟩
    rw [MainWindow.showCurrentFrequency_text_of_lt P f h2, hl]
  · have hl : lround (f / 1000) = roundHalfAway (f / 1000) :=
      lround_of_bounds (f / 1000) 1 (10 ^ 13) (by unfold LONG_MIN; norm_num)
        (by unfold LONG_MAX; norm_num)
        (by push_cast; rw [le_div_iff₀ (by norm_num)]; linarith)
        (by push_cast; rw [div_le_iff₀ (by norm_num)]; linarith)
    refine ⟨roundHalfAway (f / 1000), roundHalfAway_isNearestHalfAway _,
      eq_roundHalfAway_of_isNearestHalfAway _, ?_⟩
    rw [MainWindow.showCurrentFrequency_text_of_ge P f h1, hl]
  · have hm : f * 1e-3 = f / 1000 := by norm_num [div_eq_mul_inv]
    rw [MainWindow.showCurrentFrequency_text_of_ge P f h1, lround_double_product f hf h1 h2, hm]

/-- C6, counterexample: the binary32 number `1e22f = 1110223 * 2^53` is at least
1000, the integer nearest to a thousandth of it is 9999999778196308361, which
does not fit a `long`, and the label is "-9223372036854775808 kHz". -/
theorem showCurrentFrequency_label_counterexample :
    binary32.Representable (9999999778196308361216 : ℚ) ∧
    (1000 : ℚ) ≤ 9999999778196308361216 ∧
    IsNearestHalfAway ((9999999778196308361216 : ℚ) / 1000) 9999999778196308361 ∧
    (MainWindow.showCurrentFrequency
        (⟨⟨⟨""⟩, ⟨0, 0⟩, ⟨0, 0⟩, ⟨0⟩⟩, ⟨fun _ => 0, fun _ => 0, 0⟩, ⟨fun _ => 0, fun _ => 0, 0⟩,
          ⟨fun _ => 0, fun _ => 0, 0⟩, ⟨fun _ => 0, fun _ => 0, 0⟩, ⟨0⟩, ⟨0⟩⟩ :
          MainWindow.Impl ℚ) 9999999778196308361216).ui.lbl_frequency.text =
      "-9223372036854775808 kHz" ∧
    "-9223372036854775808 kHz" ≠ QString.number 9999999778196308361 ++ " kHz" := by
  refine ⟨⟨1110223, 53, by norm_num [binary32], by norm_num [binary32], by norm_num⟩,
    by norm_num, ?_, ?_, by decide⟩
  · left
    rw [abs_lt]
    constructor <;> norm_num
  · rw [MainWindow.showCurrentFrequency_text_of_ge _ _ (by norm_num)]
    have hr : roundHalfAway ((9999999778196308361216 : ℚ) / 1000) = 9999999778196308361 := by
      rw [roundHalfAway_of_nonneg (by norm_num), Int.floor_eq_iff]
      constructor <;> norm_num
    have hl : lround ((9999999778196308361216 : ℚ) / 1000) = LONG_MIN := by
      unfold lround
      rw [hr, if_neg (by unfold LONG_MAX; norm_num)]
    rw [hl]
    decide

/-- C6 at 2500 Hz, a halfway case: the label is "3 kHz". -/
theorem showCurrentFrequency_label_witness :
    (MainWindow.showCurrentFrequency
        (⟨⟨⟨""⟩, ⟨0, 0⟩, ⟨0, 0⟩, ⟨0⟩⟩, ⟨fun _ => 0, fun _ => 0, 0⟩, ⟨fun _ => 0, fun _ => 0, 0⟩,
          ⟨fun _ => 0, fun _ => 0, 0⟩, ⟨fun _ => 0, fun _ => 0, 0⟩, ⟨0⟩, ⟨0⟩⟩ :
          MainWindow.Impl ℚ) 2500).ui.lbl_frequency.text = "3 kHz" := by
  obtain ⟨n, hn, _, ht⟩ := (showCurrentFrequency_label
    (⟨⟨⟨""⟩, ⟨0, 0⟩, ⟨0, 0⟩, ⟨0⟩⟩, ⟨fun _ => 0, fun _ => 0, 0⟩, ⟨fun _ => 0, fun _ => 0, 0⟩,
      ⟨fun _ => 0, fun _ => 0, 0⟩, ⟨fun _ => 0, fun _ => 0, 0⟩, ⟨0⟩, ⟨0⟩⟩ :
      MainWindow.Impl ℚ) 2500).2.1 (by norm_num) (by norm_num)
  have h3 : n = 3 := by
    rw [eq_roundHalfAway_of_isNearestHalfAway _ n hn, roundHalfAway_of_nonneg (by norm_num)]
    norm_num
  rw [ht, h3]
  decide

/-- C9: the Hz and kHz formats meet at the boundary.  Every `f` with
`999.5 ≤ f < 1000`, such as 999.5, is labelled "1000 Hz", whereas 1000 is
labelled "1 kHz"; and in the kHz branch distinct frequencies share a label:
every `f` with `1000 ≤ f < 1500`, such as 1000 and 1499, is labelled "1 kHz",
and 1500 is labelled "2 kHz". -/
theorem showCurrentFrequency_boundary (P : MainWindow.Impl K) :
    (∀ f : K, 999.5 ≤ f → f < 1000 →
      (MainWindow.showCurrentFrequency P f).ui.lbl_frequency.text = "1000 Hz") ∧
    (MainWindow.showCurrentFrequency P (999.5 : K)).ui.lbl_frequency.text = "1000 Hz" ∧
    (MainWindow.showCurrentFrequency P (1000 : K)).ui.lbl_frequency.text = "1 kHz" ∧
    (∀ f : K, 1000 ≤ f → f < 1500 →
      (MainWindow.showCurrentFrequency P f).ui.lbl_frequency.text = "1 kHz") ∧
    (MainWindow.showCurrentFrequency P (1499 : K)).ui.lbl_frequency.text = "1 kHz" ∧
    (MainWindow.showCurrentFrequency P (1500 : K)).ui.lbl_frequency.text = "2 kHz" := by
  have hHz : ∀ f : K, 999.5 ≤ f → f < 1000 →
      (MainWindow.showCurrentFrequency P f).ui.lbl_frequency.text = "1000 Hz" := by
    intro f h1 h2
    rw [MainWindow.showCurrentFrequency_text_of_lt P f h2]
    have hr : lround f = 1000 := by
      apply lround_eq_of_floor f 1000 (by linarith)
      · norm_num at h1 ⊢; linarith
      · push_cast; linarith
      · unfold LONG_MAX; norm_num
    rw [hr]
    decide
  have hkHz : ∀ f : K, 1000 ≤ f → f < 1500 →
      (MainWindow.showCurrentFrequency P f).ui.lbl_frequency.text = "1 kHz" := by
    intro f h1 h2
    rw [MainWindow.showCurrentFrequency_text_of_ge P f h1]
    have hr : lround (f / 1000) = 1 := by
      apply lround_eq_of_floor (f / 1000) 1 (by positivity)
      · rw [← sub_nonneg]
        have : f / 1000 + 1 / 2 - ((1 : ℤ) : K) = (f - 500) / 1000 := by push_cast; ring
        rw [this]
        apply div_nonneg <;> linarith
      · rw [← sub_pos]
        have : ((1 : ℤ) : K) + 1 - (f / 1000 + 1 / 2) = (1500 - f) / 1000 := by push_cast; ring
        rw [this]
        apply div_pos <;> linarith
      · unfold LONG_MAX; norm_num
    rw [hr]
    decide
  refine ⟨hHz, hHz _ (le_refl _) (by norm_num), hkHz _ (le_refl _) (by norm_num), hkHz,
    hkHz _ (by norm_num) (by norm_num), ?_⟩
  rw [MainWindow.showCurrentFrequency_text_of_ge P _ (by norm_num)]
  have hr : lround ((1500 : K) / 1000) = 2 := by
    apply lround_eq_of_floor _ 2 (by positivity)
    · norm_num
    · norm_num
    · unfold LONG_MAX; norm_num
  rw [hr]
  decide

end MainWindowTheorems

section Levels

variable {K : Type} [LinearOrderedField K]

end Levels

/-! ## The level meters with the values of a binary32 library -/

